import Mathlib

set_option linter.unusedSectionVars false

/-!
Verification of the core algorithms of `bout-table-stats`
(`src/bouttablestats.py` and `src/make-histograms.py`):

* the per-row bout segmentation loop (`BoutStatistics.__init__` /
  `create_histograms`), embedded as `segRow` (one row, with explicit fuel
  for the Python `while True` loop) and `processRows` (all rows, threading
  the `stimuli_bout` phase across rows exactly as the Python code does);
* the merge/collapse step `[k for k,v in groupby(raw_bout)]`, embedded as
  `mergeBout`;
* the prefix-tree histogram builder `make_histogram`, embedded over
  association lists standing for Python's insertion-ordered dicts;
* the percentage annotation walk `percentage_tree`, embedded with exact
  rational arithmetic in place of Python floats.

Tokens are an arbitrary type `α` with decidable equality, matching the
code's use of opaque comparable values (CSV string cells).
-/

section Defs

variable {α : Type} [DecidableEq α]

/-- The merge/collapse step of the source, `[k for k,v in groupby(raw_bout)]`
(line 74 of `bouttablestats.py`, line 81 of `make-histograms.py`):
`itertools.groupby` groups maximal runs of adjacent equal tokens and the
comprehension keeps the key of each run, i.e. the first token of every
maximal run of equal adjacent tokens, in order. -/
def mergeBout : List α → List α
  | [] => []
  | [a] => [a]
  | a :: b :: l => if a = b then mergeBout (b :: l) else a :: mergeBout (b :: l)

/-- A node of the histogram prefix tree: the dict
`{'count': ..., 'children': ...}` of `make_histogram`.  Children are an
association list from token to node, standing for Python's
insertion-ordered dict (existing keys keep their place, new keys are
appended at the end). -/
inductive HNode (α : Type) : Type where
  | mk (count : ℕ) (children : List (α × HNode α)) : HNode α
deriving Repr

def HNode.count : HNode α → ℕ
  | .mk c _ => c

def HNode.children : HNode α → List (α × HNode α)
  | .mk _ ch => ch

/-- One step of `make_histogram`'s inner loop at one level: look up token
`b` in the level; if present, bump its count and apply `f` to its children
(descend with the rest of the bout); if absent, append a fresh node with
count 1 whose children are `f` applied to the empty dict.  This mirrors
`node = parent.get(b); if node is None: node = {'count': 0, 'children': {}};
parent[b] = node; node['count'] += 1; parent = node['children']`. -/
def insertTok (b : α) (f : List (α × HNode α) → List (α × HNode α)) :
    List (α × HNode α) → List (α × HNode α)
  | [] => [(b, HNode.mk 1 (f []))]
  | (k, HNode.mk c ch) :: tl =>
      if k = b then (k, HNode.mk (c + 1) (f ch)) :: tl
      else (k, HNode.mk c ch) :: insertTok b f tl

/-- Insert one bout into one level of the tree: the inner `for b in bout`
loop of `make_histogram`. -/
def addBoutLevel : List α → List (α × HNode α) → List (α × HNode α)
  | [], lvl => lvl
  | b :: rest, lvl => insertTok b (addBoutLevel rest) lvl

/-- `make_histogram(bouts)` (lines 238-253 of `bouttablestats.py`, lines
137-152 of `make-histograms.py`): fold every bout into the root level. -/
def make_histogram (bouts : List (List α)) : List (α × HNode α) :=
  bouts.foldl (fun lvl bout => addBoutLevel bout lvl) []

/-- Association-list lookup, Python's `parent.get(b)`. -/
def lookupTok (b : α) : List (α × HNode α) → Option (HNode α)
  | [] => none
  | (k, n) :: tl => if k = b then some n else lookupTok b tl

/-- The node addressed by a non-empty token path `w` from a level, if any. -/
def nodeAt : List (α × HNode α) → List α → Option (HNode α)
  | _, [] => none
  | lvl, [b] => lookupTok b lvl
  | lvl, b :: c :: rest =>
      match lookupTok b lvl with
      | none => none
      | some n => nodeAt n.children (c :: rest)

/-- `matchesFront w l` decides whether `w` is an initial segment of `l`. -/
def matchesFront : List α → List α → Bool
  | [], _ => true
  | _ :: _, [] => false
  | a :: as, b :: bs => a = b && matchesFront as bs

/-- Sum of the counts stored directly at one level:
`total = sum over nodes of node['count']` in `percentage_tree`'s `walk`. -/
def levelTotal (lvl : List (α × HNode α)) : ℕ :=
  (lvl.map (fun x => x.2.count)).sum

/-- The count stored at path `w`, or `0` when no node sits there. -/
def countAtPath (lvl : List (α × HNode α)) (w : List α) : ℕ :=
  match nodeAt lvl w with
  | some n => n.count
  | none => 0

mutual

/-- All counts in a level (and below) are at least 1: the construction
invariant of trees built by `make_histogram`. -/
def cpAll : List (α × HNode α) → Bool
  | [] => true
  | (_, n) :: tl => cpNode n && cpAll tl

def cpNode : HNode α → Bool
  | .mk c ch => decide (1 ≤ c) && cpAll ch

end

mutual

/-- The recursion of `percentage_tree`'s `walk` never divides by zero:
every non-empty children map it descends into has positive total.
`walk` is called on the (possibly empty) root and recurses exactly into
the non-empty children maps, dividing only inside its `for` loop, i.e.
only at non-empty levels. -/
def dsAll : List (α × HNode α) → Bool
  | [] => true
  | (_, n) :: tl => dsNode n && dsAll tl

def dsNode : HNode α → Bool
  | .mk _ ch => if ch.isEmpty then true else decide (0 < levelTotal ch) && dsAll ch

end

/-- `walk` applied to this root level performs no division at an empty
level and only positive-total divisions below. -/
def divSafe (lvl : List (α × HNode α)) : Bool :=
  (lvl.isEmpty || decide (0 < levelTotal lvl)) && dsAll lvl

mutual

/-- Every node's count is at least the sum of its immediate children's
counts, recursively. -/
def csAll : List (α × HNode α) → Bool
  | [] => true
  | (_, n) :: tl => csNode n && csAll tl

def csNode : HNode α → Bool
  | .mk c ch => decide (levelTotal ch ≤ c) && csAll ch

end

/-- A node of the annotated tree produced by `percentage_tree`:
`{'percent': ..., 'count': ..., 'children': ...}`, with the Python float
`percent` modelled exactly as a rational. -/
inductive PNode (α : Type) : Type where
  | mk (percent : ℚ) (count : ℕ) (children : List (α × PNode α)) : PNode α
deriving Repr

def PNode.percent : PNode α → ℚ
  | .mk q _ _ => q

def PNode.count : PNode α → ℕ
  | .mk _ c _ => c

def PNode.children : PNode α → List (α × PNode α)
  | .mk _ _ ch => ch

mutual

/-- The body of `percentage_tree`'s `walk` (lines 216-233 of
`bouttablestats.py`, lines 115-132 of `make-histograms.py`): one level of
nodes together with the precomputed `total` of that level.  For each node,
`percent = count / total`; the children are walked with a fresh total only
when non-empty (`walk(children) if children else {}`). -/
def pLevel : List (α × HNode α) → ℕ → List (α × PNode α)
  | [], _ => []
  | (e, n) :: tl, total => (e, pNode n total) :: pLevel tl total

def pNode : HNode α → ℕ → PNode α
  | .mk c ch, total =>
      PNode.mk ((c : ℚ) / (total : ℚ)) c
        (if ch.isEmpty then [] else pLevel ch (levelTotal ch))

end

/-- `percentage_tree(histogram)`: walk the root level with its total. -/
def percentage_tree (histogram : List (α × HNode α)) : List (α × PNode α) :=
  pLevel histogram (levelTotal histogram)

/-- Sum of the counts stored directly at one annotated level. -/
def pLevelCounts (lvl : List (α × PNode α)) : ℕ :=
  (lvl.map (fun x => x.2.count)).sum

/-- A non-empty annotated level is correct when each percent is the node's
count over the level's count total and the percents sum to 1; an empty
level is vacuously correct. -/
def levelCheck (lvl : List (α × PNode α)) : Bool :=
  lvl.isEmpty ||
    (decide ((lvl.map (fun x => x.2.percent)).sum = 1) &&
      lvl.all (fun x => decide (x.2.percent = (x.2.count : ℚ) / (pLevelCounts lvl : ℚ))))

mutual

/-- `levelCheck` holds at every level strictly below the given one. -/
def pgAll : List (α × PNode α) → Bool
  | [] => true
  | (_, n) :: tl => pgNode n && pgAll tl

def pgNode : PNode α → Bool
  | .mk _ _ ch => levelCheck ch && pgAll ch

end

/-- `levelCheck` holds at this level and every level below it. -/
def percentsGood (lvl : List (α × PNode α)) : Bool :=
  levelCheck lvl && pgAll lvl

/-- The `while True` bout-collection loop for one row (lines 68-94 of
`bouttablestats.py`, lines 75-97 of `make-histograms.py`), with explicit
fuel for the unbounded Python loop (`none` = fuel ran out before the loop
broke).  State mirrors the Python locals: the current phase `stimuli_bout`
and the per-row emitted bout counts `nS`/`nP`, from which the cursor is
recomputed as `start = offset + s * n_stimuli_bouts + p * n_pause_bouts`.
Each emitted bout is returned tagged with the phase it was emitted in, in
emission order, together with the phase at which the loop broke (the loop
breaks, without flipping the phase, as soon as the slice
`row[start:start+length]` is shorter than `length`; merging is applied to
the emitted bout only, exactly as in the source). -/
def segRow (s p offset : ℕ) (nomerge : Bool) (row : List α) :
    ℕ → Bool → ℕ → ℕ → Option (List (Bool × List α) × Bool)
  | 0, _, _, _ => none
  | fuel + 1, stimuli_bout, nS, nP =>
    let start := offset + s * nS + p * nP
    let length := if stimuli_bout then s else p
    let raw_bout := (row.drop start).take length
    let bout := if nomerge then raw_bout else mergeBout raw_bout
    if length ≠ raw_bout.length then some ([], stimuli_bout)
    else
      match segRow s p offset nomerge row fuel (!stimuli_bout)
          (if stimuli_bout then nS + 1 else nS)
          (if stimuli_bout then nP else nP + 1) with
      | none => none
      | some (out, phF) => some ((stimuli_bout, bout) :: out, phF)

/-- The row loop of `BoutStatistics.__init__` / `create_histograms`:
`stimuli_bout` is initialized once (from `begin_with_stimuli`) before this
loop and threaded through it, never reset per row; the per-row counters
`n_stimuli_bouts` / `n_pause_bouts` restart at 0 for each row.  Each row's
loop gets fuel `row.length + 1`, enough whenever `s, p ≥ 1`. -/
def processRows (s p offset : ℕ) (nomerge : Bool) :
    List (List α) → Bool → Option (List (List (Bool × List α)) × Bool)
  | [], stimuli_bout => some ([], stimuli_bout)
  | row :: rest, stimuli_bout =>
    match segRow s p offset nomerge row (row.length + 1) stimuli_bout 0 0 with
    | none => none
    | some (out, ph1) =>
      match processRows s p offset nomerge rest ph1 with
      | none => none
      | some (outs, ph2) => some (out :: outs, ph2)

/-- End-to-end core: collect `raw_stimuli` / `raw_pauses` over all rows
(appended in emission order, exactly as the Python lists are), build the
two histograms and annotate them. -/
def create_histograms (s p offset : ℕ) (begin_with_stimuli nomerge : Bool)
    (rows : List (List α)) :
    Option (List (α × PNode α) × List (α × PNode α)) :=
  match processRows s p offset nomerge rows begin_with_stimuli with
  | none => none
  | some (outs, _) =>
    let raw_stimuli := ((outs.flatten).filter (fun x => x.1)).map (fun x => x.2)
    let raw_pauses := ((outs.flatten).filter (fun x => !x.1)).map (fun x => x.2)
    some (percentage_tree (make_histogram raw_stimuli),
      percentage_tree (make_histogram raw_pauses))

/-- The phase of the `i`-th bout emitted after entering a row's loop in
phase `ph`: the loop flips the phase once per emitted bout. -/
def phaseAt (ph : Bool) (i : ℕ) : Bool :=
  if i % 2 = 0 then ph else !ph

/-- Total number of tokens in the emitted bouts. -/
def boutsLen (out : List (Bool × List α)) : ℕ :=
  (out.map (fun x => x.2.length)).sum

end Defs

section MergeThms

variable {α : Type} [DecidableEq α]

theorem mergeBout_cons (a : α) (l : List α) :
    ∃ t, mergeBout (a :: l) = a :: t := by
  cases l with
  | nil => exact ⟨[], rfl⟩
  | cons b l =>
    by_cases hab : a = b
    · subst hab
      obtain ⟨t, ht⟩ := mergeBout_cons a l
      exact ⟨t, by simp [mergeBout, ht]⟩
    · exact ⟨mergeBout (b :: l), by simp [mergeBout, hab]⟩

/-- The output of the merge step never has two adjacent equal tokens. -/
theorem mergeBout_chain (l : List α) : (mergeBout l).Chain' (· ≠ ·) := by
  induction l with
  | nil => simp [mergeBout]
  | cons a l ih =>
    cases l with
    | nil => simp [mergeBout]
    | cons b l =>
      by_cases hab : a = b
      · subst hab
        simpa [mergeBout] using ih
      · obtain ⟨t, ht⟩ := mergeBout_cons b l
        rw [mergeBout, if_neg hab, ht]
        rw [ht] at ih
        exact List.Chain'.cons hab ih

/-- Merging a list that already has no adjacent equal tokens leaves it
unchanged. -/
theorem mergeBout_of_chain (l : List α) (h : l.Chain' (· ≠ ·)) :
    mergeBout l = l := by
  induction l with
  | nil => rfl
  | cons a l ih =>
    cases l with
    | nil => rfl
    | cons b l =>
      have hab : a ≠ b := (List.chain'_cons.mp h).1
      have htail : (b :: l).Chain' (· ≠ ·) := (List.chain'_cons.mp h).2
      rw [mergeBout, if_neg hab, ih htail]

theorem mergeBout_idem (l : List α) : mergeBout (mergeBout l) = mergeBout l :=
  mergeBout_of_chain _ (mergeBout_chain l)

end MergeThms

section HistogramThms

variable {α : Type} [DecidableEq α]

@[simp] theorem hnode_count_mk (c : ℕ) (ch : List (α × HNode α)) :
    (HNode.mk c ch).count = c := rfl

@[simp] theorem hnode_children_mk (c : ℕ) (ch : List (α × HNode α)) :
    (HNode.mk c ch).children = ch := rfl

@[simp] theorem pnode_percent_mk (q : ℚ) (c : ℕ) (ch : List (α × PNode α)) :
    (PNode.mk q c ch).percent = q := rfl

@[simp] theorem pnode_count_mk (q : ℚ) (c : ℕ) (ch : List (α × PNode α)) :
    (PNode.mk q c ch).count = c := rfl

@[simp] theorem pnode_children_mk (q : ℚ) (c : ℕ) (ch : List (α × PNode α)) :
    (PNode.mk q c ch).children = ch := rfl

theorem lookupTok_insertTok_self (b : α) (f : List (α × HNode α) → List (α × HNode α))
    (lvl : List (α × HNode α)) :
    lookupTok b (insertTok b f lvl) =
      some (match lookupTok b lvl with
            | some n => HNode.mk (n.count + 1) (f n.children)
            | none => HNode.mk 1 (f [])) := by
  induction lvl with
  | nil => simp [insertTok, lookupTok]
  | cons hd tl ih =>
    obtain ⟨k, c, ch⟩ := hd
    by_cases hk : k = b
    · subst hk
      simp [insertTok, lookupTok, HNode.count, HNode.children]
    · simp [insertTok, lookupTok, hk, ih]

theorem lookupTok_insertTok_ne (a b : α) (hab : a ≠ b)
    (f : List (α × HNode α) → List (α × HNode α)) (lvl : List (α × HNode α)) :
    lookupTok a (insertTok b f lvl) = lookupTok a lvl := by
  induction lvl with
  | nil =>
    have hba : ¬ (b = a) := fun h => hab h.symm
    simp [insertTok, lookupTok, hba]
  | cons hd tl ih =>
    obtain ⟨k, c, ch⟩ := hd
    have hba : ¬ (b = a) := fun h => hab h.symm
    by_cases hk : k = b
    · subst hk
      simp [insertTok, lookupTok, hba]
    · simp [insertTok, lookupTok, hk, ih]

theorem nodeAt_nil (w : List α) : nodeAt ([] : List (α × HNode α)) w = none := by
  cases w with
  | nil => rfl
  | cons b rest => cases rest <;> simp [nodeAt, lookupTok]

theorem countAtPath_nil (w : List α) :
    countAtPath ([] : List (α × HNode α)) w = 0 := by
  simp [countAtPath, nodeAt_nil]

theorem nodeAt_addBoutLevel (w : List α) :
    w ≠ [] → ∀ (bout : List α) (lvl : List (α × HNode α)),
      (nodeAt (addBoutLevel bout lvl) w).isSome
          = ((nodeAt lvl w).isSome || matchesFront w bout) ∧
        countAtPath (addBoutLevel bout lvl) w
          = countAtPath lvl w + (if matchesFront w bout then 1 else 0) := by
  induction w with
  | nil => intro hw; exact absurd rfl hw
  | cons a w' ih =>
    intro _ bout lvl
    cases bout with
    | nil => simp [addBoutLevel, matchesFront]
    | cons b rest =>
      by_cases hab : a = b
      · subst hab
        rw [addBoutLevel]
        have hself := lookupTok_insertTok_self a (addBoutLevel rest) lvl
        cases hl : lookupTok a lvl with
        | none =>
          rw [hl] at hself
          cases w' with
          | nil =>
            simp [nodeAt, countAtPath, hself, hl, matchesFront, HNode.count]
          | cons c w'' =>
            have hstep := ih (by simp) rest ([] : List (α × HNode α))
            simp only [nodeAt_nil, countAtPath_nil, Option.isSome_none,
              Bool.false_or, Nat.zero_add] at hstep
            have e1 : nodeAt (insertTok a (addBoutLevel rest) lvl) (a :: c :: w'')
                = nodeAt (addBoutLevel rest []) (c :: w'') := by
              simp [nodeAt, hself, HNode.children]
            have e2 : nodeAt lvl (a :: c :: w'') = none := by
              simp [nodeAt, hl]
            have hm2 : matchesFront (a :: c :: w'') (a :: rest)
                = matchesFront (c :: w'') rest := by
              simp [matchesFront]
            have g1 : countAtPath (insertTok a (addBoutLevel rest) lvl) (a :: c :: w'')
                = countAtPath (addBoutLevel rest []) (c :: w'') := by
              simp [countAtPath, e1]
            have g2 : countAtPath lvl (a :: c :: w'') = 0 := by
              simp [countAtPath, e2]
            refine ⟨?_, ?_⟩
            · rw [e1, e2, hm2, hstep.1]; simp
            · rw [g1, g2, hm2, hstep.2]; simp
        | some n =>
          obtain ⟨c0, ch⟩ := n
          rw [hl] at hself
          cases w' with
          | nil =>
            simp [nodeAt, countAtPath, hself, hl, matchesFront, HNode.count]
          | cons c w'' =>
            have hstep := ih (by simp) rest ch
            have e1 : nodeAt (insertTok a (addBoutLevel rest) lvl) (a :: c :: w'')
                = nodeAt (addBoutLevel rest ch) (c :: w'') := by
              simp [nodeAt, hself, HNode.children]
            have e2 : nodeAt lvl (a :: c :: w'') = nodeAt ch (c :: w'') := by
              simp [nodeAt, hl, HNode.children]
            have hm2 : matchesFront (a :: c :: w'') (a :: rest)
                = matchesFront (c :: w'') rest := by
              simp [matchesFront]
            have g1 : countAtPath (insertTok a (addBoutLevel rest) lvl) (a :: c :: w'')
                = countAtPath (addBoutLevel rest ch) (c :: w'') := by
              simp [countAtPath, e1]
            have g2 : countAtPath lvl (a :: c :: w'') = countAtPath ch (c :: w'') := by
              simp [countAtPath, e2]
            refine ⟨?_, ?_⟩
            · rw [e1, e2, hm2, hstep.1]
            · rw [g1, g2, hm2, hstep.2]
      · rw [addBoutLevel]
        have hne := lookupTok_insertTok_ne a b hab (addBoutLevel rest) lvl
        have hm : matchesFront (a :: w') (b :: rest) = false := by
          simp [matchesFront, hab]
        cases w' with
        | nil => simp [nodeAt, countAtPath, hne, hm]
        | cons c w'' => simp [nodeAt, countAtPath, hne, hm]

theorem nodeAt_foldl (w : List α) (hw : w ≠ []) :
    ∀ (bouts : List (List α)) (lvl : List (α × HNode α)),
      (nodeAt (bouts.foldl (fun l b => addBoutLevel b l) lvl) w).isSome
          = ((nodeAt lvl w).isSome || bouts.any (fun b => matchesFront w b)) ∧
        countAtPath (bouts.foldl (fun l b => addBoutLevel b l) lvl) w
          = countAtPath lvl w + (bouts.filter (fun b => matchesFront w b)).length := by
  intro bouts
  induction bouts with
  | nil => intro lvl; simp
  | cons b bs ih =>
    intro lvl
    have hstep := nodeAt_addBoutLevel w hw b lvl
    have hrest := ih (addBoutLevel b lvl)
    constructor
    · rw [List.foldl_cons, hrest.1, hstep.1]
      cases hmb : matchesFront w b <;> simp [hmb, List.any_cons]
    · rw [List.foldl_cons, hrest.2, hstep.2]
      cases hmb : matchesFront w b
      · simp [hmb, List.filter_cons]
      · simp [hmb, List.filter_cons]
        omega

theorem foldl_nil_bouts (bouts : List (List α)) (lvl : List (α × HNode α))
    (h : ∀ b ∈ bouts, b = []) :
    bouts.foldl (fun l bout => addBoutLevel bout l) lvl = lvl := by
  induction bouts generalizing lvl with
  | nil => rfl
  | cons b bs ih =>
    have hb : b = [] := h b (by simp)
    subst hb
    exact ih lvl (fun b hb => h b (by simp [hb]))

theorem cpAll_insertTok (b : α) (f : List (α × HNode α) → List (α × HNode α))
    (hf : ∀ l, cpAll l = true → cpAll (f l) = true)
    (lvl : List (α × HNode α)) (h : cpAll lvl = true) :
    cpAll (insertTok b f lvl) = true := by
  induction lvl with
  | nil => simp [insertTok, cpAll, cpNode, hf [] rfl]
  | cons hd tl ih =>
    obtain ⟨k, c, ch⟩ := hd
    rw [cpAll, cpNode, Bool.and_eq_true, Bool.and_eq_true] at h
    by_cases hk : k = b
    · rw [insertTok, if_pos hk, cpAll, cpNode]
      simp [hf ch h.1.2, h.2]
    · rw [insertTok, if_neg hk, cpAll, cpNode]
      simp [h.1.1, h.1.2, ih h.2]

theorem cpAll_addBoutLevel (bout : List α) :
    ∀ lvl, cpAll lvl = true → cpAll (addBoutLevel bout lvl) = true := by
  induction bout with
  | nil => intro lvl h; exact h
  | cons b rest ih =>
    intro lvl h
    exact cpAll_insertTok b (addBoutLevel rest) (fun l hl => ih l hl) lvl h

theorem cpAll_make_histogram (bouts : List (List α)) :
    cpAll (make_histogram bouts) = true := by
  have key : ∀ lvl, cpAll lvl = true →
      cpAll (bouts.foldl (fun l bout => addBoutLevel bout l) lvl) = true := by
    induction bouts with
    | nil => intro lvl h; exact h
    | cons b bs ih =>
      intro lvl h
      exact ih (addBoutLevel b lvl) (cpAll_addBoutLevel b lvl h)
  exact key [] rfl

theorem levelTotal_pos_of_cpAll (lvl : List (α × HNode α)) (hne : lvl ≠ [])
    (h : cpAll lvl = true) : 0 < levelTotal lvl := by
  cases lvl with
  | nil => exact absurd rfl hne
  | cons hd tl =>
    obtain ⟨k, c, ch⟩ := hd
    rw [cpAll, cpNode, Bool.and_eq_true, Bool.and_eq_true] at h
    have h1 : 1 ≤ c := by simpa using h.1.1
    simp only [levelTotal, List.map_cons, List.sum_cons, HNode.count]
    omega

mutual

theorem dsAll_of_cpAll : ∀ lvl : List (α × HNode α), cpAll lvl = true →
    dsAll lvl = true
  | [], _ => rfl
  | (_, n) :: tl, h => by
    rw [cpAll, Bool.and_eq_true] at h
    rw [dsAll, Bool.and_eq_true]
    exact ⟨dsNode_of_cpNode n h.1, dsAll_of_cpAll tl h.2⟩

theorem dsNode_of_cpNode : ∀ n : HNode α, cpNode n = true → dsNode n = true
  | HNode.mk c ch, h => by
    rw [cpNode, Bool.and_eq_true] at h
    rw [dsNode]
    by_cases hch : ch.isEmpty
    · simp [hch]
    · have hne : ch ≠ [] := by
        cases ch with
        | nil => simp at hch
        | cons x xs => simp
      have hpos := levelTotal_pos_of_cpAll ch hne h.2
      simp [hch, hpos, dsAll_of_cpAll ch h.2]

end

theorem divSafe_of_cpAll (lvl : List (α × HNode α)) (h : cpAll lvl = true) :
    divSafe lvl = true := by
  rw [divSafe, Bool.and_eq_true]
  refine ⟨?_, dsAll_of_cpAll lvl h⟩
  cases lvl with
  | nil => rfl
  | cons hd tl =>
    have hpos := levelTotal_pos_of_cpAll (hd :: tl) (by simp) h
    simp [hpos]

theorem levelTotal_insertTok (b : α) (f : List (α × HNode α) → List (α × HNode α))
    (lvl : List (α × HNode α)) :
    levelTotal (insertTok b f lvl) = levelTotal lvl + 1 := by
  induction lvl with
  | nil => simp [insertTok, levelTotal, HNode.count]
  | cons hd tl ih =>
    obtain ⟨k, c, ch⟩ := hd
    by_cases hk : k = b
    · rw [insertTok, if_pos hk]
      simp only [levelTotal, List.map_cons, List.sum_cons, HNode.count] at *
      omega
    · rw [insertTok, if_neg hk]
      simp only [levelTotal, List.map_cons, List.sum_cons, HNode.count] at *
      omega

theorem levelTotal_addBoutLevel (bout : List α) (lvl : List (α × HNode α)) :
    levelTotal (addBoutLevel bout lvl)
      = levelTotal lvl + (if bout.isEmpty then 0 else 1) := by
  cases bout with
  | nil => simp [addBoutLevel]
  | cons b rest => simp [addBoutLevel, levelTotal_insertTok]

theorem csAll_insertTok (b : α) (f : List (α × HNode α) → List (α × HNode α))
    (hf : ∀ l, csAll l = true → csAll (f l) = true)
    (hft : ∀ l, levelTotal (f l) ≤ levelTotal l + 1)
    (lvl : List (α × HNode α)) (h : csAll lvl = true) :
    csAll (insertTok b f lvl) = true := by
  induction lvl with
  | nil =>
    have h0 := hft []
    rw [insertTok, csAll, csNode, Bool.and_eq_true, Bool.and_eq_true]
    refine ⟨⟨?_, hf [] rfl⟩, rfl⟩
    simp only [levelTotal, List.map_nil, List.sum_nil] at h0
    simpa using h0
  | cons hd tl ih =>
    obtain ⟨k, c, ch⟩ := hd
    rw [csAll, csNode, Bool.and_eq_true, Bool.and_eq_true] at h
    have hc : levelTotal ch ≤ c := by simpa using h.1.1
    by_cases hk : k = b
    · rw [insertTok, if_pos hk, csAll, csNode]
      have hft' := hft ch
      simp [hf ch h.1.2, h.2]
      omega
    · rw [insertTok, if_neg hk, csAll, csNode]
      simp [hc, h.1.2, ih h.2]

theorem csAll_addBoutLevel (bout : List α) :
    ∀ lvl, csAll lvl = true → csAll (addBoutLevel bout lvl) = true := by
  induction bout with
  | nil => intro lvl h; exact h
  | cons b rest ih =>
    intro lvl h
    refine csAll_insertTok b (addBoutLevel rest) (fun l hl => ih l hl) ?_ lvl h
    intro l
    rw [levelTotal_addBoutLevel]
    cases rest <;> simp

theorem csAll_make_histogram (bouts : List (List α)) :
    csAll (make_histogram bouts) = true := by
  have key : ∀ lvl, csAll lvl = true →
      csAll (bouts.foldl (fun l bout => addBoutLevel bout l) lvl) = true := by
    induction bouts with
    | nil => intro lvl h; exact h
    | cons b bs ih =>
      intro lvl h
      exact ih (addBoutLevel b lvl) (csAll_addBoutLevel b lvl h)
  exact key [] rfl

end HistogramThms

section PTreeThms

variable {α : Type} [DecidableEq α]

theorem pLevel_map_count (lvl : List (α × HNode α)) (t : ℕ) :
    (pLevel lvl t).map (fun x => x.2.count) = lvl.map (fun x => x.2.count) := by
  induction lvl with
  | nil => rfl
  | cons hd tl ih =>
    obtain ⟨e, c, ch⟩ := hd
    simp only [pLevel, pNode, List.map_cons, pnode_count_mk, hnode_count_mk, ih]

theorem pLevelCounts_pLevel (lvl : List (α × HNode α)) (t : ℕ) :
    pLevelCounts (pLevel lvl t) = levelTotal lvl := by
  rw [pLevelCounts, pLevel_map_count, levelTotal]

theorem pLevel_percent_sum (lvl : List (α × HNode α)) (t : ℕ) :
    ((pLevel lvl t).map (fun x => x.2.percent)).sum
      = (levelTotal lvl : ℚ) / (t : ℚ) := by
  induction lvl with
  | nil => simp [pLevel, levelTotal]
  | cons hd tl ih =>
    obtain ⟨e, c, ch⟩ := hd
    simp only [levelTotal, List.map_cons, List.sum_cons, hnode_count_mk] at ih ⊢
    simp only [pLevel, pNode, List.map_cons, List.sum_cons, pnode_percent_mk, ih]
    push_cast
    rw [div_add_div_same]

theorem mem_pLevel_percent (lvl : List (α × HNode α)) (t : ℕ) :
    ∀ x ∈ pLevel lvl t, x.2.percent = (x.2.count : ℚ) / (t : ℚ) := by
  induction lvl with
  | nil => simp [pLevel]
  | cons hd tl ih =>
    obtain ⟨e, c, ch⟩ := hd
    intro x hx
    rw [pLevel] at hx
    rcases List.mem_cons.mp hx with h | h
    · subst h
      simp [pNode]
    · exact ih x h

theorem levelCheck_pLevel (lvl : List (α × HNode α))
    (hpos : lvl = [] ∨ 0 < levelTotal lvl) :
    levelCheck (pLevel lvl (levelTotal lvl)) = true := by
  rcases hpos with h | h
  · subst h
    rfl
  · have hT : ((levelTotal lvl : ℕ) : ℚ) ≠ 0 := by
      exact_mod_cast Nat.pos_iff_ne_zero.mp h
    rw [levelCheck, Bool.or_eq_true]
    right
    rw [Bool.and_eq_true]
    constructor
    · rw [decide_eq_true_eq, pLevel_percent_sum, div_self hT]
    · rw [List.all_eq_true]
      intro x hx
      rw [decide_eq_true_eq, pLevelCounts_pLevel]
      exact mem_pLevel_percent lvl (levelTotal lvl) x hx

mutual

theorem pgAll_pLevel : ∀ (lvl : List (α × HNode α)), dsAll lvl = true →
    ∀ t, pgAll (pLevel lvl t) = true
  | [], _, _ => rfl
  | (e, n) :: tl, h, t => by
    rw [dsAll, Bool.and_eq_true] at h
    rw [pLevel, pgAll, Bool.and_eq_true]
    exact ⟨pgNode_pNode n h.1 t, pgAll_pLevel tl h.2 t⟩

theorem pgNode_pNode : ∀ (n : HNode α), dsNode n = true →
    ∀ t, pgNode (pNode n t) = true
  | HNode.mk c ch, h, t => by
    rw [dsNode] at h
    rw [pNode, pgNode]
    by_cases hch : ch.isEmpty
    · simp [hch, levelCheck, pgAll]
    · rw [if_neg hch] at h ⊢
      rw [Bool.and_eq_true, decide_eq_true_eq] at h
      rw [Bool.and_eq_true]
      exact ⟨levelCheck_pLevel ch (Or.inr h.1), pgAll_pLevel ch h.2 (levelTotal ch)⟩

end

theorem percentsGood_of_divSafe (lvl : List (α × HNode α))
    (h : divSafe lvl = true) :
    percentsGood (percentage_tree lvl) = true := by
  rw [divSafe, Bool.and_eq_true] at h
  rw [percentsGood, percentage_tree, Bool.and_eq_true]
  refine ⟨?_, pgAll_pLevel lvl h.2 _⟩
  apply levelCheck_pLevel
  rcases Bool.or_eq_true _ _ |>.mp h.1 with he | hp
  · exact Or.inl (List.isEmpty_iff.mp he)
  · exact Or.inr (by simpa using hp)

end PTreeThms


section SegmenterThms

variable {α : Type} [DecidableEq α]

theorem phaseAt_zero (ph : Bool) : phaseAt ph 0 = ph := rfl

theorem phaseAt_not (ph : Bool) (i : ℕ) : phaseAt (!ph) i = phaseAt ph (i + 1) := by
  rcases Nat.mod_two_eq_zero_or_one i with h | h <;>
    simp [phaseAt, h, Nat.add_mod]

theorem boutsLen_nil : boutsLen ([] : List (Bool × List α)) = 0 := rfl

theorem boutsLen_cons (x : Bool × List α) (out : List (Bool × List α)) :
    boutsLen (x :: out) = x.2.length + boutsLen out := by
  simp [boutsLen]

/-- One unfolding step of the row loop, written out. -/
theorem segRow_succ (s p offset : ℕ) (nm : Bool) (row : List α) (fuel : ℕ)
    (ph : Bool) (nS nP : ℕ) :
    segRow s p offset nm row (fuel + 1) ph nS nP
      = (if (if ph then s else p)
            ≠ ((row.drop (offset + s * nS + p * nP)).take (if ph then s else p)).length
         then some ([], ph)
         else
           match segRow s p offset nm row fuel (!ph)
               (if ph then nS + 1 else nS) (if ph then nP else nP + 1) with
           | none => none
           | some (out, phF) =>
             some ((ph,
               if nm then (row.drop (offset + s * nS + p * nP)).take (if ph then s else p)
               else mergeBout
                 ((row.drop (offset + s * nS + p * nP)).take (if ph then s else p)))
                 :: out, phF)) := rfl

/-- The phases of the bouts emitted by one run of the row loop alternate,
starting from the entry phase, and the phase at which the loop breaks is
the entry phase flipped once per emitted bout (the failing partial slice
is attempted in that final phase and discarded). -/
theorem segRow_tags (s p offset : ℕ) (nm : Bool) (row : List α) :
    ∀ (fuel : ℕ) (ph : Bool) (nS nP : ℕ) (out : List (Bool × List α)) (phF : Bool),
      segRow s p offset nm row fuel ph nS nP = some (out, phF) →
      (∀ i (hi : i < out.length), (out.get ⟨i, hi⟩).1 = phaseAt ph i) ∧
        phF = phaseAt ph out.length := by
  intro fuel
  induction fuel with
  | zero =>
    intro ph nS nP out phF h
    exact absurd h (by simp [segRow])
  | succ fuel ih =>
    intro ph nS nP out phF h
    rw [segRow_succ] at h
    by_cases hbr : (if ph then s else p)
        ≠ ((row.drop (offset + s * nS + p * nP)).take (if ph then s else p)).length
    · rw [if_pos hbr, Option.some.injEq, Prod.mk.injEq] at h
      obtain ⟨h1, h2⟩ := h
      subst h1
      subst h2
      refine ⟨?_, rfl⟩
      intro i hi
      simp at hi
    · rw [if_neg hbr] at h
      cases heq : segRow s p offset nm row fuel (!ph)
          (if ph then nS + 1 else nS) (if ph then nP else nP + 1) with
      | none =>
        rw [heq] at h
        exact absurd h (by simp)
      | some r =>
        obtain ⟨out', ph'⟩ := r
        rw [heq] at h
        rw [Option.some.injEq, Prod.mk.injEq] at h
        obtain ⟨h1, h2⟩ := h
        subst h1
        subst h2
        have hrec := ih (!ph) _ _ out' ph' heq
        constructor
        · intro i hi
          cases i with
          | zero => simp [phaseAt]
          | succ j =>
            have hj : j < out'.length := by simpa using hi
            have hx := hrec.1 j hj
            rw [phaseAt_not] at hx
            simpa using hx
        · simp only [List.length_cons]
          rw [hrec.2]
          exact phaseAt_not ph out'.length

/-- With merging disabled, one run of the row loop emits slices that tile
the row contiguously from its starting cursor: every emitted bout has
exactly its configured length, their concatenation is the row slice from
the cursor of length `boutsLen out`, and the remaining tokens after the
last full bout are fewer than the failing phase's required length. -/
theorem segRow_consume (s p offset : ℕ) (row : List α) :
    ∀ (fuel : ℕ) (ph : Bool) (nS nP : ℕ) (out : List (Bool × List α)) (phF : Bool),
      segRow s p offset true row fuel ph nS nP = some (out, phF) →
      (∀ x ∈ out, x.2.length = (if x.1 then s else p)) ∧
        (out.map (fun x => x.2)).flatten
          = (row.drop (offset + s * nS + p * nP)).take (boutsLen out) ∧
        (row.drop (offset + s * nS + p * nP + boutsLen out)).length
          < (if phF then s else p) := by
  intro fuel
  induction fuel with
  | zero =>
    intro ph nS nP out phF h
    exact absurd h (by simp [segRow])
  | succ fuel ih =>
    intro ph nS nP out phF h
    rw [segRow_succ] at h
    by_cases hbr : (if ph then s else p)
        ≠ ((row.drop (offset + s * nS + p * nP)).take (if ph then s else p)).length
    · rw [if_pos hbr, Option.some.injEq, Prod.mk.injEq] at h
      obtain ⟨h1, h2⟩ := h
      subst h1
      subst h2
      refine ⟨by simp, by simp [boutsLen_nil], ?_⟩
      rw [boutsLen_nil, Nat.add_zero]
      by_contra hcon
      push_neg at hcon
      rw [List.length_take] at hbr
      exact hbr ((Nat.min_eq_left hcon).symm)
    · rw [if_neg hbr] at h
      push_neg at hbr
      have hLle : (if ph then s else p)
          ≤ (row.drop (offset + s * nS + p * nP)).length := by
        rw [List.length_take] at hbr
        exact le_of_eq_of_le hbr (Nat.min_le_right _ _)
      have hlen : ((row.drop (offset + s * nS + p * nP)).take (if ph then s else p)).length
          = (if ph then s else p) := by
        rw [List.length_take]
        exact Nat.min_eq_left hLle
      cases heq : segRow s p offset true row fuel (!ph)
          (if ph then nS + 1 else nS) (if ph then nP else nP + 1) with
      | none =>
        rw [heq] at h
        exact absurd h (by simp)
      | some r =>
        obtain ⟨out', ph'⟩ := r
        rw [heq] at h
        rw [Option.some.injEq, Prod.mk.injEq] at h
        obtain ⟨h1, h2⟩ := h
        subst h1
        subst h2
        have harith :
            offset + s * (if ph then nS + 1 else nS) + p * (if ph then nP else nP + 1)
              = offset + s * nS + p * nP + (if ph then s else p) := by
          cases ph <;> simp <;> ring
        have hrec := ih (!ph) _ _ out' ph' heq
        rw [harith] at hrec
        refine ⟨?_, ?_, ?_⟩
        · intro x hx
          rcases List.mem_cons.mp hx with hx | hx
          · subst hx
            simpa using hlen
          · exact hrec.1 x hx
        · rw [List.map_cons, List.flatten_cons, boutsLen_cons]
          simp only [if_true]
          rw [hlen, List.take_add, List.drop_drop, hrec.2.1]
        · rw [boutsLen_cons]
          simp only [if_true]
          rw [hlen]
          have h3 := hrec.2.2
          have harr : offset + s * nS + p * nP + ((if ph then s else p) + boutsLen out')
              = offset + s * nS + p * nP + (if ph then s else p) + boutsLen out' := by
            omega
          rw [harr]
          exact h3

/-- With `s, p ≥ 1`, fuel exceeding the remaining row suffices: the row
loop always reaches its break. -/
theorem segRow_fuel (s p offset : ℕ) (nm : Bool) (row : List α)
    (hs : 1 ≤ s) (hp : 1 ≤ p) :
    ∀ (fuel : ℕ) (ph : Bool) (nS nP : ℕ),
      (row.drop (offset + s * nS + p * nP)).length < fuel →
      (segRow s p offset nm row fuel ph nS nP).isSome = true := by
  intro fuel
  induction fuel with
  | zero =>
    intro ph nS nP hlt
    omega
  | succ fuel ih =>
    intro ph nS nP hlt
    rw [segRow_succ]
    by_cases hbr : (if ph then s else p)
        ≠ ((row.drop (offset + s * nS + p * nP)).take (if ph then s else p)).length
    · rw [if_pos hbr]
      rfl
    · rw [if_neg hbr]
      push_neg at hbr
      have hLle : (if ph then s else p)
          ≤ (row.drop (offset + s * nS + p * nP)).length := by
        rw [List.length_take] at hbr
        exact le_of_eq_of_le hbr (Nat.min_le_right _ _)
      have hL1 : 1 ≤ (if ph then s else p) := by
        cases ph <;> simpa
      have harith :
          offset + s * (if ph then nS + 1 else nS) + p * (if ph then nP else nP + 1)
            = offset + s * nS + p * nP + (if ph then s else p) := by
        cases ph <;> simp <;> ring
      have hlt' : (row.drop (offset + s * (if ph then nS + 1 else nS)
          + p * (if ph then nP else nP + 1))).length < fuel := by
        rw [harith, List.length_drop]
        rw [List.length_drop] at hlt hLle
        omega
      have hrec := ih (!ph) _ _ hlt'
      obtain ⟨r, hr⟩ := Option.isSome_iff_exists.mp hrec
      rw [hr]
      obtain ⟨out', ph'⟩ := r
      rfl

/-- With both bout lengths zero, the row loop never breaks: every slice is
empty and counts as a full bout, so the loop exhausts any finite fuel. -/
theorem segRow_zero_zero :
    ∀ (fuel : ℕ) (ph : Bool) (nS nP : ℕ),
      segRow 0 0 0 true ([] : List ℕ) fuel ph nS nP = none := by
  intro fuel
  induction fuel with
  | zero => intro ph nS nP; rfl
  | succ fuel ih =>
    intro ph nS nP
    rw [segRow_succ]
    simp [ih]

/-- The row loop of the file driver: after a row is segmented, the
remaining rows are processed starting from the phase at which that row's
loop broke — the phase is never reset to the configured starting phase. -/
theorem processRows_cons (s p offset : ℕ) (nm : Bool) (row : List α)
    (rest : List (List α)) (ph : Bool) (out : List (Bool × List α)) (ph1 : Bool)
    (h : segRow s p offset nm row (row.length + 1) ph 0 0 = some (out, ph1)) :
    processRows s p offset nm (row :: rest) ph
      = match processRows s p offset nm rest ph1 with
        | none => none
        | some (outs, ph2) => some (out :: outs, ph2) := by
  rw [processRows, h]

end SegmenterThms

section Claims

variable {α : Type} [DecidableEq α]

/-- C1: for every row and any configuration with `s ≥ 1`, `p ≥ 1`, any
offset and any entry phase, the row loop terminates and its raw
(unmerged) bouts tile the row contiguously from `offset`: each emitted
bout has exactly its configured length, their concatenation equals the
row slice from `offset` up to the last fully-consumed index, and the
trailing partial slice (shorter than its required length) is discarded
and emitted as no bout. -/
theorem claim_C1_segmenter_tiles (s p offset : ℕ) (row : List α) (ph : Bool)
    (hs : 1 ≤ s) (hp : 1 ≤ p) :
    ∃ out phF,
      segRow s p offset true row (row.length + 1) ph 0 0 = some (out, phF) ∧
        (∀ x ∈ out, x.2.length = (if x.1 then s else p)) ∧
        (out.map (fun x => x.2)).flatten = (row.drop offset).take (boutsLen out) ∧
        (row.drop (offset + boutsLen out)).length < (if phF then s else p) := by
  have hfuel := segRow_fuel s p offset true row hs hp (row.length + 1) ph 0 0
    (by rw [List.length_drop]; omega)
  obtain ⟨r, hr⟩ := Option.isSome_iff_exists.mp hfuel
  obtain ⟨out, phF⟩ := r
  have hc := segRow_consume s p offset row (row.length + 1) ph 0 0 out phF hr
  refine ⟨out, phF, hr, hc.1, ?_, ?_⟩
  · simpa using hc.2.1
  · simpa using hc.2.2

theorem claim_C1_witness :
    (1 : ℕ) ≤ 2 ∧ (1 : ℕ) ≤ 1 ∧
      (∃ out phF,
        segRow 2 1 1 true ([9, 1, 1, 2, 3, 3] : List ℕ)
            (([9, 1, 1, 2, 3, 3] : List ℕ).length + 1) true 0 0 = some (out, phF) ∧
          (∀ x ∈ out, x.2.length = (if x.1 then 2 else 1)) ∧
          (out.map (fun x => x.2)).flatten
            = (([9, 1, 1, 2, 3, 3] : List ℕ).drop 1).take (boutsLen out) ∧
          (([9, 1, 1, 2, 3, 3] : List ℕ).drop (1 + boutsLen out)).length
            < (if phF then 2 else 1)) :=
  ⟨by decide, by decide,
    claim_C1_segmenter_tiles 2 1 1 [9, 1, 1, 2, 3, 3] true (by decide) (by decide)⟩

/-- C2: in the tree built by `make_histogram`, a node sits at a non-empty
token path `w` exactly when some bout has `w` as an initial segment, its
count is the number of bouts with that initial segment, and a histogram
built only from empty bouts has no children at the root. -/
theorem claim_C2_histogram_counts (bouts : List (List α)) (w : List α)
    (hw : w ≠ []) :
    ((nodeAt (make_histogram bouts) w).isSome
        = bouts.any (fun b => matchesFront w b)) ∧
      countAtPath (make_histogram bouts) w
        = (bouts.filter (fun b => matchesFront w b)).length ∧
      ((∀ b ∈ bouts, b = []) → make_histogram bouts = []) := by
  have h := nodeAt_foldl w hw bouts []
  rw [make_histogram]
  refine ⟨?_, ?_, ?_⟩
  · rw [h.1, nodeAt_nil]
    simp
  · rw [h.2, countAtPath_nil]
    simp
  · intro hb
    exact foldl_nil_bouts bouts [] hb

theorem claim_C2_witness :
    (([0] : List ℕ) ≠ []) ∧
      (((nodeAt (make_histogram ([[0], [0, 1]] : List (List ℕ))) [0]).isSome
          = ([[0], [0, 1]] : List (List ℕ)).any (fun b => matchesFront [0] b)) ∧
        countAtPath (make_histogram ([[0], [0, 1]] : List (List ℕ))) [0]
          = (([[0], [0, 1]] : List (List ℕ)).filter (fun b => matchesFront [0] b)).length ∧
        ((∀ b ∈ ([[0], [0, 1]] : List (List ℕ)), b = []) →
          make_histogram ([[0], [0, 1]] : List (List ℕ)) = [])) :=
  ⟨by decide, claim_C2_histogram_counts [[0], [0, 1]] [0] (by decide)⟩

/-- C3, as stated, is false on the code: the phase is carried across rows,
so a later row can start in the opposite phase from the configured one.
Concretely, with `s = p = 1`, `offset = 0`, `startsWithStimulus = true`
and rows `[[0], [1]]`, the second row's first (and only) bout is emitted
as a pause bout. -/
theorem claim_C3_counterexample :
    ¬ (∀ (s p offset : ℕ) (rows : List (List ℕ)) (ph0 : Bool)
        (outs : List (List (Bool × List ℕ))) (phF : Bool),
        1 ≤ s → 1 ≤ p →
        processRows s p offset true rows ph0 = some (outs, phF) →
        ∀ o ∈ outs, ∀ (h : 0 < o.length), (o.get ⟨0, h⟩).1 = ph0) := by
  intro hclaim
  have h := hclaim 1 1 0 [[0], [1]] true [[(true, [0])], [(false, [1])]] true
    (by decide) (by decide) (by decide)
  have h2 := h [(false, [1])] (by simp) (by decide)
  simp at h2

/-- C3 (amended): within each row the emitted bouts strictly alternate
starting from the row's entry phase, and the row's first full bout is in
the row's entry phase; only the first row is guaranteed to enter in the
configured starting phase — the driver hands each later row the phase left
over by the previous row. -/
theorem claim_C3_amended (s p offset : ℕ) (nm : Bool) (row : List α)
    (rest : List (List α)) (fuel : ℕ) (ph ph0 : Bool) (nS nP : ℕ)
    (out : List (Bool × List α)) (phF : Bool)
    (h : segRow s p offset nm row fuel ph nS nP = some (out, phF)) :
    (∀ i (hi : i < out.length), (out.get ⟨i, hi⟩).1 = phaseAt ph i) ∧
      (∀ (hne : 0 < out.length), (out.get ⟨0, hne⟩).1 = ph) ∧
      processRows s p offset nm (row :: rest) ph0
        = (match segRow s p offset nm row (row.length + 1) ph0 0 0 with
           | none => none
           | some (o, ph1) =>
             match processRows s p offset nm rest ph1 with
             | none => none
             | some (outs, ph2) => some (o :: outs, ph2)) := by
  have ht := segRow_tags s p offset nm row fuel ph nS nP out phF h
  refine ⟨ht.1, fun hne => ?_, rfl⟩
  have h0 := ht.1 0 hne
  simpa [phaseAt] using h0

theorem claim_C3_amended_witness :
    segRow 2 1 1 true ([9, 1, 1, 2, 3, 3] : List ℕ) 7 true 0 0
        = some ([(true, [1, 1]), (false, [2]), (true, [3, 3])], false) ∧
      ((∀ i (hi : i < ([(true, [1, 1]), (false, [2]), (true, [3, 3])]
            : List (Bool × List ℕ)).length),
          (([(true, [1, 1]), (false, [2]), (true, [3, 3])]
            : List (Bool × List ℕ)).get ⟨i, hi⟩).1 = phaseAt true i) ∧
        (∀ (hne : 0 < ([(true, [1, 1]), (false, [2]), (true, [3, 3])]
            : List (Bool × List ℕ)).length),
          (([(true, [1, 1]), (false, [2]), (true, [3, 3])]
            : List (Bool × List ℕ)).get ⟨0, hne⟩).1 = true) ∧
        processRows 2 1 1 true ([[9, 1, 1, 2, 3, 3]] : List (List ℕ)) true
          = (match segRow 2 1 1 true ([9, 1, 1, 2, 3, 3] : List ℕ)
                (([9, 1, 1, 2, 3, 3] : List ℕ).length + 1) true 0 0 with
             | none => none
             | some (o, ph1) =>
               match processRows 2 1 1 true ([] : List (List ℕ)) ph1 with
               | none => none
               | some (outs, ph2) => some (o :: outs, ph2))) :=
  ⟨by decide,
    claim_C3_amended 2 1 1 true [9, 1, 1, 2, 3, 3] [] 7 true true 0 0
      [(true, [1, 1]), (false, [2]), (true, [3, 3])] false (by decide)⟩

/-- C4: on any histogram on which the `walk` of `percentage_tree` runs
without dividing by zero (in particular on every tree `make_histogram`
builds), the annotated tree it produces has, at every non-empty level,
each node's percent equal to its count divided by the level's count total,
and the percents of every non-empty sibling level sum to exactly 1 in
exact rational arithmetic. -/
theorem claim_C4_percent_sums (lvl : List (α × HNode α))
    (h : divSafe lvl = true) :
    percentsGood (percentage_tree lvl) = true :=
  percentsGood_of_divSafe lvl h

theorem claim_C4_witness :
    divSafe (make_histogram ([[0], [0, 1]] : List (List ℕ))) = true ∧
      percentsGood (percentage_tree (make_histogram
        ([[0], [0, 1]] : List (List ℕ)))) = true :=
  ⟨by decide, claim_C4_percent_sums _ (by decide)⟩

/-- C5: `percentage_tree` never divides by zero on a tree produced by
`make_histogram` — every level its `walk` divides at is non-empty with
positive total, because every created node has count ≥ 1 — and on an
empty histogram it returns the empty annotated tree without recursing or
dividing. -/
theorem claim_C5_no_div_by_zero :
    (∀ (bouts : List (List α)), divSafe (make_histogram bouts) = true) ∧
      percentage_tree ([] : List (α × HNode α)) = [] :=
  ⟨fun bouts => divSafe_of_cpAll _ (cpAll_make_histogram bouts), rfl⟩

/-- C6: in every tree `make_histogram` builds, each node's count is at
least the sum of its immediate children's counts; equality is not
guaranteed — in the histogram of `[[0], [0, 1]]` the node at `[0]` has
count 2 but its children sum to 1, because one bout ends at that node. -/
theorem claim_C6_count_ge_children :
    (∀ (bouts : List (List α)), csAll (make_histogram bouts) = true) ∧
      nodeAt (make_histogram ([[0], [0, 1]] : List (List ℕ))) [0]
        = some (HNode.mk 2 [(1, HNode.mk 1 [])]) ∧
      levelTotal ((HNode.mk 2 [((1 : ℕ), HNode.mk 1 [])]).children) <
        (HNode.mk 2 [((1 : ℕ), HNode.mk 1 [])] : HNode ℕ).count :=
  ⟨fun bouts => csAll_make_histogram bouts, by rfl, by decide⟩

/-- C7: the merge/collapse step is idempotent, its output never contains
two adjacent equal tokens, and it keeps the first token of each run in
order: `[A,A,B,B,B,A]` merges to `[A,B,A]`. -/
theorem claim_C7_merge_idempotent :
    (∀ (l : List α), mergeBout (mergeBout l) = mergeBout l) ∧
      (∀ (l : List α), (mergeBout l).Chain' (· ≠ ·)) ∧
      mergeBout ["A", "A", "B", "B", "B", "A"] = ["A", "B", "A"] :=
  ⟨mergeBout_idem, mergeBout_chain, by decide⟩

/-- C8: on the row `["id1","A","A","B","X","X"]` with `offset = 1`,
`s = 2`, `p = 1`, starting with a stimulus bout and merging enabled, the
row loop emits exactly the stimulus bout `["A"]` (collapsed from
`[A,A]`), then the pause bout `["B"]`, then the stimulus bout `["X"]`
(collapsed from `[X,X]`), and then breaks with the row exhausted. -/
theorem claim_C8_scenario :
    segRow 2 1 1 false ["id1", "A", "A", "B", "X", "X"]
        ((["id1", "A", "A", "B", "X", "X"] : List String).length + 1) true 0 0
      = some ([(true, ["A"]), (false, ["B"]), (true, ["X"])], false) ∧
      (([(true, ["A"]), (false, ["B"]), (true, ["X"])]
          : List (Bool × List String)).filter (fun x => x.1)).map (fun x => x.2)
        = [["A"], ["X"]] ∧
      (([(true, ["A"]), (false, ["B"]), (true, ["X"])]
          : List (Bool × List String)).filter (fun x => !x.1)).map (fun x => x.2)
        = [["B"]] :=
  ⟨by decide, by decide, by decide⟩

/-- C9: with `s ≥ 1` and `p ≥ 1` the row loop terminates on every finite
row — fuel one more than the row length always reaches the break — while
with `s = 0` and `p = 0` it consumes any amount of fuel without breaking
(every empty slice counts as a full bout). -/
theorem claim_C9_termination :
    (∀ (β : Type) [DecidableEq β] (s p offset : ℕ) (nm : Bool)
        (row : List β) (ph : Bool),
        1 ≤ s → 1 ≤ p →
        (segRow s p offset nm row (row.length + 1) ph 0 0).isSome = true) ∧
      (∀ (fuel : ℕ) (ph : Bool),
        segRow 0 0 0 true ([] : List ℕ) fuel ph 0 0 = none) := by
  constructor
  · intro β _ s p offset nm row ph hs hp
    apply segRow_fuel s p offset nm row hs hp
    rw [List.length_drop]
    omega
  · intro fuel ph
    exact segRow_zero_zero fuel ph 0 0

theorem claim_C9_witness :
    (segRow 2 1 0 true ([0, 1, 2] : List ℕ)
        (([0, 1, 2] : List ℕ).length + 1) true 0 0).isSome = true ∧
      segRow 0 0 0 true ([] : List ℕ) 5 true 0 0 = none :=
  ⟨claim_C9_termination.1 ℕ 2 1 0 true [0, 1, 2] true (by decide) (by decide),
    claim_C9_termination.2 5 true⟩

/-- C10: the phase is one piece of state for the whole file: the driver
hands the remaining rows exactly the phase at which the previous row's
loop broke (never resetting it), that final phase is the entry phase
flipped once per successfully emitted bout — i.e. the phase of the failed
partial slice that ended the row — and `create_histograms` initializes the
phase once, from `begin_with_stimuli`, before the row loop. -/
theorem claim_C10_phase_threading (s p offset : ℕ) (nm : Bool) (row : List α)
    (rest : List (List α)) (ph : Bool) (out : List (Bool × List α)) (ph1 : Bool)
    (h : segRow s p offset nm row (row.length + 1) ph 0 0 = some (out, ph1)) :
    (∀ (outs : List (List (Bool × List α))) (ph2 : Bool),
        processRows s p offset nm rest ph1 = some (outs, ph2) →
        processRows s p offset nm (row :: rest) ph = some (out :: outs, ph2)) ∧
      ph1 = phaseAt ph out.length ∧
      (∀ (rows : List (List α)) (bws : Bool)
          (outs : List (List (Bool × List α))) (phEnd : Bool),
        processRows s p offset nm rows bws = some (outs, phEnd) →
        create_histograms s p offset bws nm rows
          = some (percentage_tree (make_histogram
              ((outs.flatten.filter (fun x => x.1)).map (fun x => x.2))),
            percentage_tree (make_histogram
              ((outs.flatten.filter (fun x => !x.1)).map (fun x => x.2))))) := by
  refine ⟨?_, ?_, ?_⟩
  · intro outs ph2 hpr
    rw [processRows, h]
    simp [hpr]
  · exact (segRow_tags s p offset nm row (row.length + 1) ph 0 0 out ph1 h).2
  · intro rows bws outs phEnd hpr
    rw [create_histograms, hpr]

theorem claim_C10_witness :
    ((∀ (outs : List (List (Bool × List ℕ))) (ph2 : Bool),
        processRows 1 1 0 true ([[1]] : List (List ℕ)) false = some (outs, ph2) →
        processRows 1 1 0 true ([[0], [1]] : List (List ℕ)) true
          = some ([(true, [0])] :: outs, ph2)) ∧
      false = phaseAt true ([(true, [0])] : List (Bool × List ℕ)).length ∧
      (∀ (rows : List (List ℕ)) (bws : Bool)
          (outs : List (List (Bool × List ℕ))) (phEnd : Bool),
        processRows 1 1 0 true rows bws = some (outs, phEnd) →
        create_histograms 1 1 0 bws true rows
          = some (percentage_tree (make_histogram
              ((outs.flatten.filter (fun x => x.1)).map (fun x => x.2))),
            percentage_tree (make_histogram
              ((outs.flatten.filter (fun x => !x.1)).map (fun x => x.2)))))) :=
  claim_C10_phase_threading 1 1 0 true [0] [[1]] true [(true, [0])] false (by decide)
end Claims
